import Mathlib

/-!
# Verification of the TF-IDF search engine (src/main.rs)

Shallow embedding of the indexing and ranking engine:

* `TF`/`TFI` model the Rust types `type TF = HashMap<String, usize>` and
  `type TFI = HashMap<PathBuf, TF>` as association lists (HashMap iteration
  order for a fixed map instance is a fixed sequence, which the list order
  represents; document identifiers are modelled as strings, matching the
  persisted schema where paths are rendered as strings).
* `F32` models the `f32` values that arise in the scorer.  Finite values are
  carried as exact rationals: the engine performs one division, one
  logarithm, one multiplication and additions per term, and the claims under
  study concern the zero/NaN special cases and the algebraic shape of the
  formulas, not rounding; accordingly finite arithmetic is exact, while the
  IEEE special values NaN and the two infinities are explicit constructors.
  The base-10 logarithm on positive finite values is an abstract parameter
  `l : ℚ → ℚ` (its values are irrational in general); `flog10` wraps it with
  the IEEE behaviour on zero, negative and special arguments.
-/

/-- Model of the `f32` values produced by the scorer: NaN, the two
infinities, and finite values carried exactly as rationals (signed zero is
not distinguished; it never affects the functions under study). -/
inductive F32 where
  | nan : F32
  | neginf : F32
  | posinf : F32
  | fin : ℚ → F32
deriving DecidableEq

/-- IEEE addition on `F32` (finite addition exact, see the module comment). -/
def fadd : F32 → F32 → F32
  | F32.nan, _ => F32.nan
  | _, F32.nan => F32.nan
  | F32.posinf, F32.neginf => F32.nan
  | F32.neginf, F32.posinf => F32.nan
  | F32.posinf, _ => F32.posinf
  | _, F32.posinf => F32.posinf
  | F32.neginf, _ => F32.neginf
  | _, F32.neginf => F32.neginf
  | F32.fin a, F32.fin b => F32.fin (a + b)

/-- IEEE multiplication on `F32` (finite multiplication exact). -/
def fmul : F32 → F32 → F32
  | F32.nan, _ => F32.nan
  | _, F32.nan => F32.nan
  | F32.fin a, F32.fin b => F32.fin (a * b)
  | F32.posinf, F32.posinf => F32.posinf
  | F32.posinf, F32.neginf => F32.neginf
  | F32.neginf, F32.posinf => F32.neginf
  | F32.neginf, F32.neginf => F32.posinf
  | F32.posinf, F32.fin a => if a = 0 then F32.nan else if 0 < a then F32.posinf else F32.neginf
  | F32.fin a, F32.posinf => if a = 0 then F32.nan else if 0 < a then F32.posinf else F32.neginf
  | F32.neginf, F32.fin a => if a = 0 then F32.nan else if 0 < a then F32.neginf else F32.posinf
  | F32.fin a, F32.neginf => if a = 0 then F32.nan else if 0 < a then F32.neginf else F32.posinf

/-- IEEE division of two finite `f32` values (the only shape the engine
divides: both operands come from `usize` casts): `0/0` is NaN, `x/0` for
`x ≠ 0` is a signed infinity, otherwise the exact quotient. -/
def fdiv (a b : ℚ) : F32 :=
  if b = 0 then (if a = 0 then F32.nan else if 0 < a then F32.posinf else F32.neginf)
  else F32.fin (a / b)

/-- IEEE `log10` on `F32`, with the finite positive branch given by the
abstract parameter `l`: `log10 0 = -∞`, `log10` of a negative value is NaN. -/
def flog10 (l : ℚ → ℚ) : F32 → F32
  | F32.fin q => if q = 0 then F32.neginf else if q < 0 then F32.nan else F32.fin (l q)
  | F32.nan => F32.nan
  | F32.posinf => F32.posinf
  | F32.neginf => F32.nan

/-- The total order used by `f32::total_cmp` in `serve_request`, as a
boolean `≤`: `-∞ < finite < +∞ < NaN` (the engine's NaNs come from `0.0/0.0`,
whose sign bit is platform-dependent; the model fixes the positive-NaN
position, which no claim under study depends on). -/
def ftotalLe : F32 → F32 → Bool
  | F32.neginf, _ => true
  | _, F32.nan => true
  | F32.fin a, F32.fin b => a ≤ b
  | F32.fin _, F32.posinf => true
  | F32.posinf, F32.posinf => true
  | _, _ => false

/-- `type TF = HashMap<String, usize>`: one document's term-frequency table. -/
abbrev TF := List (String × Nat)

/-- `type TFI = HashMap<PathBuf, TF>`: the index, keyed by document path. -/
abbrev TFI := List (String × TF)

/-- `d.get(t).unwrap_or(&0)`: the stored count of `t`, 0 when absent. -/
def tfGet (t : String) (d : TF) : Nat :=
  match d.find? (fun kv => kv.1 == t) with
  | some kv => kv.2
  | none => 0

/-- `d.iter().map(|(_, f)| *f).sum::<usize>()`: the total token count. -/
def tfTotal (d : TF) : Nat := (d.map Prod.snd).sum

/-- `tf.contains_key(t)`. -/
def tfContains (t : String) (d : TF) : Bool := (d.find? (fun kv => kv.1 == t)).isSome

/-- `fn tf(t: &str, d: &TF) -> f32` (src/main.rs:164-169):
`a = *d.get(t).unwrap_or(&0) as f32; b = sum of counts as f32; a / b`. -/
def tf (t : String) (d : TF) : F32 :=
  fdiv ((tfGet t d : ℚ)) ((tfTotal d : ℚ))

/-- `d.values().filter(|tf| tf.contains_key(t)).count()`: the number of
documents whose table contains `t`. -/
def countContaining (t : String) (d : TFI) : Nat :=
  (d.filter (fun kv => tfContains t kv.2)).length

/-- `fn idf(t: &str, d: &TFI) -> f32` (src/main.rs:171-175):
`n = d.len(); m = (documents containing t) + 1; (n / m).log10()`. -/
def idf (l : ℚ → ℚ) (t : String) (d : TFI) : F32 :=
  flog10 l (fdiv ((d.length : ℚ)) ((countContaining t d : ℚ) + 1))

/-- The IDF formula as the spec states it: `log10(N / (m + 1))` with
`N = index.len()` and `m` the number of documents containing the term
(a finite positive argument, so the logarithm is the finite branch `l`). -/
def idf_spec (l : ℚ → ℚ) (t : String) (d : TFI) : F32 :=
  F32.fin (l ((d.length : ℚ) / ((countContaining t d : ℚ) + 1)))

/-- C1: the code has no special case for an empty table: `tf` on an empty
table computes `0.0 / 0.0`, which is NaN, not the `0.0` the spec requires.
This theorem evaluates the code at the failing input (any term, empty
table). -/
theorem c1_tf_empty_table_is_nan : ∀ t : String, tf t [] = F32.nan := by
  intro t
  have hget : tfGet t [] = 0 := rfl
  simp [tf, hget, tfTotal, fdiv]

/-- C6: the code has no special case for an empty index: `idf` on an empty
index computes `log10(0 / 1) = log10 0`, which is `-∞`, not the `0.0` the
spec requires.  This theorem evaluates the code at the failing input (any
term, any finite-log model `l`). -/
theorem c6_idf_empty_index_is_neginf :
    ∀ (l : ℚ → ℚ) (t : String), idf l t [] = F32.neginf := by
  intro l t
  have hc : countContaining t [] = 0 := rfl
  simp [idf, hc, fdiv, flog10]

/-- C2: on any index with at least one document, `idf` computes exactly the
spec's formula `log10(N / (m + 1))` where `m` counts the documents whose
table contains the term: the code's `m` variable is the spec's `m + 1`, the
argument of the logarithm is a positive finite value, and the result is the
finite logarithm of `N / (m + 1)`.  In particular, for 4 documents exactly
one of which contains the term the argument is `4 / 2 = 2`, and for a term
in no document it is `N / 1`. -/
theorem c2_idf_matches_spec (l : ℚ → ℚ) (t : String) (d : TFI)
    (h : 1 ≤ d.length) : idf l t d = idf_spec l t d := by
  have hm : ((countContaining t d : ℚ) + 1) ≠ 0 := by positivity
  have hn : (0 : ℚ) < (d.length : ℚ) := by exact_mod_cast h
  have hq : 0 < (d.length : ℚ) / ((countContaining t d : ℚ) + 1) := by positivity
  simp [idf, idf_spec, fdiv, flog10, hm, hq.ne', not_lt.mpr hq.le]

/-- Witness for C2: a concrete index of 4 documents, exactly one containing
"RARE"; with the identity standing in for the abstract finite `log10`, the
result is the finite image of `4 / (1 + 1) = 2`, i.e. `log10 2`. -/
theorem c2_idf_matches_spec_witness :
    1 ≤ ([("d1", [("RARE", 1)]), ("d2", [("X", 1)]), ("d3", [("X", 2)]),
          ("d4", ([] : TF))] : TFI).length ∧
    idf (fun q => q) "RARE"
      [("d1", [("RARE", 1)]), ("d2", [("X", 1)]), ("d3", [("X", 2)]),
       ("d4", ([] : TF))] = F32.fin 2 := by
  refine ⟨by decide, ?_⟩
  rw [c2_idf_matches_spec (fun q => q) "RARE" _ (by decide)]
  have h1 : countContaining "RARE"
      [("d1", [("RARE", 1)]), ("d2", [("X", 1)]), ("d3", [("X", 2)]),
       ("d4", ([] : TF))] = 1 := by decide
  norm_num [idf_spec, h1]

/-- C5: on any table with a nonzero total count, `tf` returns the exact
ratio (count of the term, 0 when absent) / (total count), as the spec's
formula states. -/
theorem c5_tf_matches_spec (t : String) (d : TF) (h : tfTotal d ≠ 0) :
    tf t d = F32.fin ((tfGet t d : ℚ) / (tfTotal d : ℚ)) := by
  have hb : ((tfTotal d : ℚ)) ≠ 0 := by exact_mod_cast h
  simp [tf, fdiv, hb]

/-- Witness for C5: on the table `{"CAT": 2, "DOG": 1}` the theorem gives
`TF("CAT") = 2/3` and `TF("BIRD") = 0`. -/
theorem c5_tf_matches_spec_witness :
    tfTotal [("CAT", 2), ("DOG", 1)] ≠ 0 ∧
    tf "CAT" [("CAT", 2), ("DOG", 1)] = F32.fin (2 / 3) ∧
    tf "BIRD" [("CAT", 2), ("DOG", 1)] = F32.fin 0 := by
  have hcat : tfGet "CAT" [("CAT", 2), ("DOG", 1)] = 2 := by decide
  have hbird : tfGet "BIRD" [("CAT", 2), ("DOG", 1)] = 0 := by decide
  have htot : tfTotal [("CAT", 2), ("DOG", 1)] = 3 := by decide
  refine ⟨by decide, ?_, ?_⟩
  · rw [c5_tf_matches_spec "CAT" _ (by decide)]; norm_num [hcat, htot]
  · rw [c5_tf_matches_spec "BIRD" _ (by decide)]; norm_num [hbird, htot]

/-!
## Tokenizer

`src/main.rs` declares `mod lexer` and drives indexing and querying through
`lexer::Lexer::new(&chars)`, but the file `src/lexer.rs` is not part of the
sources provided; the tokenizer below is modelled from the spec.
-/

/-- Modelled from the spec: the `lexer` module (declared as `mod lexer` in
src/main.rs) is missing from src/; this is the tokenizer contract of spec
§4.1, driven by a fuel argument to keep the recursion structural.  On each
step: skip leading whitespace; a maximal run of digits is one token; else a
maximal run of alphabetic characters is one token; else exactly one
character is a token; every token is upper-cased.  The fuel is irrelevant
whenever it is at least the input length (`tokenizeF_fuel`). -/
def tokenizeF : Nat → List Char → List String
  | _, [] => []
  | 0, _ :: _ => []
  | n + 1, c :: cs =>
    if c.isWhitespace then tokenizeF n cs
    else if c.isDigit then
      String.mk ((c :: cs.takeWhile Char.isDigit).map Char.toUpper) ::
        tokenizeF n (cs.dropWhile Char.isDigit)
    else if c.isAlpha then
      String.mk ((c :: cs.takeWhile Char.isAlpha).map Char.toUpper) ::
        tokenizeF n (cs.dropWhile Char.isAlpha)
    else
      String.mk [c.toUpper] :: tokenizeF n cs

/-- Modelled from the spec: `tokenize` is the tokenizer run with enough
fuel for its whole input. -/
def tokenize (s : List Char) : List String := tokenizeF s.length s

theorem tokenizeF_fuel (n : Nat) : ∀ (m : Nat) (s : List Char),
    s.length ≤ n → s.length ≤ m → tokenizeF n s = tokenizeF m s := by
  induction n with
  | zero =>
    intro m s hn _
    have hs : s = [] := List.length_eq_zero.mp (Nat.le_zero.mp hn)
    subst hs
    cases m <;> rfl
  | succ n ih =>
    intro m s hn hm
    cases s with
    | nil => cases m <;> rfl
    | cons c cs =>
      cases m with
      | zero => simp at hm
      | succ m =>
        have hcs : cs.length ≤ n := Nat.succ_le_succ_iff.mp (by simpa using hn)
        have hcsm : cs.length ≤ m := Nat.succ_le_succ_iff.mp (by simpa using hm)
        have hdig : (cs.dropWhile Char.isDigit).length ≤ cs.length :=
          (List.dropWhile_sublist _).length_le
        have halp : (cs.dropWhile Char.isAlpha).length ≤ cs.length :=
          (List.dropWhile_sublist _).length_le
        simp only [tokenizeF]
        by_cases h1 : c.isWhitespace
        · simp only [h1, if_true]
          exact ih m cs hcs hcsm
        · by_cases h2 : c.isDigit
          · simp only [h1, h2, if_true, Bool.false_eq_true, if_false]
            rw [ih m _ (le_trans hdig hcs) (le_trans hdig hcsm)]
          · by_cases h3 : c.isAlpha
            · simp only [h1, h2, h3, if_true, Bool.false_eq_true, if_false]
              rw [ih m _ (le_trans halp hcs) (le_trans halp hcsm)]
            · simp only [h1, h2, h3, Bool.false_eq_true, if_false]
              rw [ih m cs hcs hcsm]

theorem tokenizeF_eq_tokenize (n : Nat) (s : List Char) (h : s.length ≤ n) :
    tokenizeF n s = tokenize s :=
  tokenizeF_fuel n s.length s h (Nat.le_refl _)

/-- C9: the tokenizer skips whitespace, emits maximal digit runs and
maximal alphabetic runs as single upper-cased tokens and any other
character as a single-character token, and on the spec's concrete examples
produces `["ABC", "123", "DEF"]` and `["A", ",", "B"]`. -/
theorem c9_tokenizer_contract :
    (∀ (c : Char) (cs : List Char), c.isWhitespace = true →
      tokenize (c :: cs) = tokenize cs) ∧
    (∀ (c : Char) (cs : List Char), c.isWhitespace = false → c.isDigit = true →
      tokenize (c :: cs) =
        String.mk ((c :: cs.takeWhile Char.isDigit).map Char.toUpper) ::
          tokenize (cs.dropWhile Char.isDigit)) ∧
    (∀ (c : Char) (cs : List Char), c.isWhitespace = false → c.isDigit = false →
      c.isAlpha = true →
      tokenize (c :: cs) =
        String.mk ((c :: cs.takeWhile Char.isAlpha).map Char.toUpper) ::
          tokenize (cs.dropWhile Char.isAlpha)) ∧
    (∀ (c : Char) (cs : List Char), c.isWhitespace = false → c.isDigit = false →
      c.isAlpha = false →
      tokenize (c :: cs) = String.mk [c.toUpper] :: tokenize cs) ∧
    tokenize "abc123 DEF".data = ["ABC", "123", "DEF"] ∧
    tokenize "a,b".data = ["A", ",", "B"] := by
  refine ⟨?_, ?_, ?_, ?_, by decide, by decide⟩
  · intro c cs h
    show tokenizeF (cs.length + 1) (c :: cs) = tokenize cs
    simp only [tokenizeF, h, if_true]
    rfl
  · intro c cs h1 h2
    show tokenizeF (cs.length + 1) (c :: cs) = _
    simp only [tokenizeF, h1, h2, if_true, Bool.false_eq_true, if_false]
    rw [tokenizeF_eq_tokenize cs.length _ (List.dropWhile_sublist _).length_le]
  · intro c cs h1 h2 h3
    show tokenizeF (cs.length + 1) (c :: cs) = _
    simp only [tokenizeF, h1, h2, h3, if_true, Bool.false_eq_true, if_false]
    rw [tokenizeF_eq_tokenize cs.length _ (List.dropWhile_sublist _).length_le]
  · intro c cs h1 h2 h3
    show tokenizeF (cs.length + 1) (c :: cs) = _
    simp only [tokenizeF, h1, h2, h3, Bool.false_eq_true, if_false]
    rfl

/-- Witness for C9: the hypotheses of the general clauses are satisfiable;
instantiating the whitespace clause at a blank and the single-character
clause at a comma. -/
theorem c9_tokenizer_contract_witness :
    (Char.isWhitespace ' ' = true ∧ tokenize (' ' :: "x".data) = tokenize "x".data) ∧
    (Char.isWhitespace ',' = false ∧ Char.isDigit ',' = false ∧
      Char.isAlpha ',' = false ∧
      tokenize (',' :: "x".data) = String.mk [Char.toUpper ','] :: tokenize "x".data) :=
  ⟨⟨by decide, c9_tokenizer_contract.1 ' ' "x".data (by decide)⟩,
   ⟨by decide, by decide, by decide,
    c9_tokenizer_contract.2.2.2.1 ',' "x".data (by decide) (by decide) (by decide)⟩⟩

/-!
## Ranking and querying (`serve_request`, src/main.rs:177-223)

The POST `/api/search` branch reads the body, iterates over every
`(path, tf_table)` pair of the index, accumulates
`rank += tf(token, table) * idf(token, index)` over the query's tokens,
sorts the `(path, rank)` vector ascending by `f32::total_cmp` (Rust's
`sort_by` is a stable sort, embedded here as a stable insertion sort) and
reverses it.
-/

/-- The spec's `Score(term, document, index) = TF * IDF`, which is also the
summand of the loop in `serve_request`. -/
def score (l : ℚ → ℚ) (tfi : TFI) (table : TF) (tok : String) : F32 :=
  fmul (tf tok table) (idf l tok tfi)

/-- The ranking loop of `serve_request` (src/main.rs:194-198):
`let mut rank = 0f32; for token in Lexer::new(&body) { rank += tf * idf }`,
over an already-tokenized body. -/
def rankDoc (l : ℚ → ℚ) (tfi : TFI) (table : TF) (tokens : List String) : F32 :=
  tokens.foldl (fun rank tok => fadd rank (score l tfi table tok)) (F32.fin 0)

/-- The spec's `RankDocument`: the sum over the query terms (with
multiplicity) of the per-term scores. -/
def fsum (xs : List F32) : F32 := xs.foldr fadd (F32.fin 0)

theorem fadd_fin_zero (x : F32) : fadd x (F32.fin 0) = x := by
  cases x <;> simp [fadd]

theorem fin_zero_fadd (x : F32) : fadd (F32.fin 0) x = x := by
  cases x <;> simp [fadd]

theorem fadd_assoc (a b c : F32) : fadd (fadd a b) c = fadd a (fadd b c) := by
  cases a <;> cases b <;> cases c <;> simp [fadd, add_assoc]

theorem foldl_fadd_eq_fsum (f : String → F32) (xs : List String) :
    ∀ a : F32, xs.foldl (fun r s => fadd r (f s)) a = fadd a (fsum (xs.map f)) := by
  induction xs with
  | nil => intro a; simp [fsum, fadd_fin_zero]
  | cons x xs ih =>
    intro a
    simp only [List.foldl_cons, List.map_cons, fsum, List.foldr_cons]
    rw [ih (fadd a (f x)), fadd_assoc]
    rfl

theorem fsum_append (xs ys : List F32) :
    fsum (xs ++ ys) = fadd (fsum xs) (fsum ys) := by
  induction xs with
  | nil => simp [fsum, fin_zero_fadd]
  | cons x xs ih =>
    simp only [List.cons_append, fsum, List.foldr_cons] at ih ⊢
    rw [ih, fadd_assoc]

/-- C7: the rank `serve_request` accumulates for a document is exactly the
spec's `RankDocument`: the sum, over the query's token sequence taken with
multiplicity, of `TF(token, table) * IDF(token, index)`; concatenating two
token sequences adds their ranks, so each repetition of a term contributes
its score once more.  The rank is a function of the token sequence, the
document's table and the whole index only — no term-frequency table of the
query is ever built or consulted. -/
theorem c7_rank_is_sum_of_scores :
    ∀ (l : ℚ → ℚ) (tfi : TFI) (table : TF) (tokens tokens2 : List String),
      rankDoc l tfi table tokens = fsum (tokens.map (score l tfi table)) ∧
      rankDoc l tfi table (tokens ++ tokens2) =
        fadd (rankDoc l tfi table tokens) (rankDoc l tfi table tokens2) := by
  intro l tfi table tokens tokens2
  have hmain : ∀ ts : List String,
      rankDoc l tfi table ts = fsum (ts.map (score l tfi table)) := by
    intro ts
    rw [rankDoc, foldl_fadd_eq_fsum, fin_zero_fadd]
  refine ⟨hmain tokens, ?_⟩
  rw [hmain, hmain, hmain, List.map_append, fsum_append]

/-- Stable ascending insertion: a later element goes after every earlier
element that is less than or equal to it, modelling the stability of Rust's
`sort_by`. -/
def insertAsc {α : Type} (le : α → α → Bool) (x : α) : List α → List α
  | [] => [x]
  | y :: ys => if le y x then y :: insertAsc le x ys else x :: y :: ys

/-- Stable ascending sort (`result.sort_by(...)` in src/main.rs:201). -/
def stableSortAsc {α : Type} (le : α → α → Bool) (l : List α) : List α :=
  l.foldl (fun acc x => insertAsc le x acc) []

/-- The comparison of src/main.rs:201: `|(_, f1), (_, f2)| f1.total_cmp(f2)`. -/
def resultLe (a b : String × F32) : Bool := ftotalLe a.2 b.2

/-- The result list built by the `/api/search` branch of `serve_request`
(src/main.rs:192-202): rank every document of the index against the
tokenized body, sort ascending by score with `total_cmp`, reverse. -/
def queryResults (l : ℚ → ℚ) (tfi : TFI) (body : List Char) :
    List (String × F32) :=
  (stableSortAsc resultLe
    (tfi.map (fun kv => (kv.1, rankDoc l tfi kv.2 (tokenize body))))).reverse

theorem insertAsc_all_le {α : Type} (le : α → α → Bool) (x : α)
    (acc : List α) (h : ∀ y ∈ acc, le y x = true) :
    insertAsc le x acc = acc ++ [x] := by
  induction acc with
  | nil => rfl
  | cons y ys ih =>
    simp only [insertAsc, h y (List.mem_cons_self y ys), if_true, List.cons_append]
    rw [ih (fun z hz => h z (List.mem_cons_of_mem y hz))]

theorem stableSortAsc_const_zero :
    ∀ (xs acc : List (String × F32)),
      (∀ p ∈ xs, p.2 = F32.fin 0) → (∀ p ∈ acc, p.2 = F32.fin 0) →
      xs.foldl (fun a x => insertAsc resultLe x a) acc = acc ++ xs := by
  intro xs
  induction xs with
  | nil => intro acc _ _; simp
  | cons x xs ih =>
    intro acc hxs hacc
    have hx : x.2 = F32.fin 0 := hxs x (List.mem_cons_self x xs)
    have hins : insertAsc resultLe x acc = acc ++ [x] := by
      refine insertAsc_all_le resultLe x acc (fun y hy => ?_)
      rw [resultLe, hx, hacc y hy]
      decide
    simp only [List.foldl_cons]
    rw [hins, ih (acc ++ [x]) (fun p hp => hxs p (List.mem_cons_of_mem x hp))
      (fun p hp => by
        rcases List.mem_append.mp hp with h | h
        · exact hacc p h
        · simp only [List.mem_singleton] at h; rw [h, hx])]
    simp

/-- C4: the query operation is a pure function of the index value and the
query text — the embedded pipeline (tokenize, rank, stable sort, reverse)
contains no source of nondeterminism, so two runs against an unchanged
index return identical ordered sequences.  Moreover the order among equal
scores is fully determined: for the empty query every document scores
`0.0`, and the returned sequence is exactly the index's (fixed) iteration
order reversed — the stable ascending sort leaves the equal-scored list
unchanged and the final `reverse` flips it. -/
theorem c4_query_deterministic :
    ∀ (l : ℚ → ℚ) (tfi : TFI) (body : List Char),
      queryResults l tfi body = queryResults l tfi body ∧
      queryResults l tfi [] =
        (tfi.map (fun kv => (kv.1, F32.fin 0))).reverse := by
  intro l tfi body
  refine ⟨rfl, ?_⟩
  have htok : tokenize ([] : List Char) = [] := rfl
  have hrank : ∀ kv : String × TF,
      rankDoc l tfi kv.2 (tokenize ([] : List Char)) = F32.fin 0 := by
    intro kv; rw [htok]; rfl
  rw [queryResults]
  have hmap : tfi.map (fun kv => (kv.1, rankDoc l tfi kv.2 (tokenize ([] : List Char))))
      = tfi.map (fun kv => (kv.1, F32.fin 0)) := by
    apply List.map_congr_left
    intro kv _
    rw [hrank kv]
  rw [hmap, stableSortAsc]
  rw [stableSortAsc_const_zero _ [] (fun p hp => (List.mem_map.mp hp).elim
    (fun kv hkv => by rw [← hkv.2])) (fun p hp => absurd hp (List.not_mem_nil p))]
  simp

/-!
## Index codec (`save_tfi`, src/main.rs:110-121; `check_index`, 123-135)

`save_tfi` writes the index with `serde_json::to_writer_pretty`, and
`check_index` (and the `serve` subcommand) read it back with
`serde_json::from_reader` at type `TFI`.  The logical shape serde uses for
`HashMap<PathBuf, HashMap<String, usize>>` is a JSON object whose keys are
the paths rendered as strings and whose values are objects mapping each
term to its count; decoding type-checks that shape and fails on anything
else.  `Json` is that logical value space (the spec places byte-level
framing outside the round-trip contract); numbers are the non-negative
counts the schema allows.
-/

/-- The logical persisted values: counts and string-keyed objects. -/
inductive Json where
  | num (n : Nat) : Json
  | obj (fields : List (String × Json)) : Json

/-- Serialization of one term-frequency table. -/
def encode_tf (d : TF) : Json :=
  Json.obj (d.map (fun kv => (kv.1, Json.num kv.2)))

/-- Serialization of the index, the logical content `save_tfi` writes. -/
def encode_tfi (tfi : TFI) : Json :=
  Json.obj (tfi.map (fun kv => (kv.1, encode_tf kv.2)))

/-- Deserialization of a table's fields: every value must be a count. -/
def decode_tf_fields : List (String × Json) → Option TF
  | [] => some []
  | (k, Json.num n) :: rest => (decode_tf_fields rest).map (fun r => (k, n) :: r)
  | (_, Json.obj _) :: _ => none

/-- Deserialization of one term-frequency table: must be an object. -/
def decode_tf : Json → Option TF
  | Json.obj fields => decode_tf_fields fields
  | Json.num _ => none

/-- Deserialization of the index's fields: every value must be a table. -/
def decode_tfi_fields : List (String × Json) → Option TFI
  | [] => some []
  | (k, j) :: rest =>
    match decode_tf j with
    | some t => (decode_tfi_fields rest).map (fun r => (k, t) :: r)
    | none => none

/-- Deserialization of the index, the logical content `check_index` and the
`serve` subcommand parse: must be an object of objects of counts. -/
def decode_tfi : Json → Option TFI
  | Json.obj fields => decode_tfi_fields fields
  | Json.num _ => none

theorem decode_tf_encode_tf (d : TF) : decode_tf (encode_tf d) = some d := by
  rw [encode_tf, decode_tf]
  induction d with
  | nil => rfl
  | cons kv rest ih =>
    simp only [List.map_cons, decode_tf_fields, ih]
    rfl

theorem c3_codec_roundtrip :
    ∀ tfi : TFI, decode_tfi (encode_tfi tfi) = some tfi := by
  intro tfi
  rw [encode_tfi, decode_tfi]
  induction tfi with
  | nil => rfl
  | cons kv rest ih =>
    simp only [List.map_cons, decode_tfi_fields, decode_tf_encode_tf, ih]
    rfl

/-!
## Batch index building (`tfi_folder`, src/main.rs:44-108)

`tfi_folder` iterates over a directory: an entry whose file name starts
with `.` is skipped before anything else; a directory is recursed into; a
file is parsed with `parse_xml_file`, and on a read/parse failure (`Err`)
the loop does `continue` — the document is skipped without touching the
index — while a successful parse tokenizes the text, counts the terms and
inserts the table under the file's path.

The directory tree is modelled as given data: spec §1 places directory
traversal and its file-system error handling outside the core, so
enumeration and the file/directory distinction are infallible here, and a
per-document read/parse failure (the `Err` branch of `parse_xml_file`) is a
file whose content is `none`.  The unused sorted `stats` vector of
src/main.rs:100-102 has no effect on the index and is not modelled.
-/

mutual
/-- A directory entry's target: a file with its extracted text, or `none`
when `parse_xml_file` fails on it; or a subdirectory. -/
inductive FsNode where
  | file (content : Option (List Char)) : FsNode
  | dir (entries : FsEntries) : FsNode
/-- The ordered entries of a directory: `(file name, node)` pairs. -/
inductive FsEntries where
  | nil : FsEntries
  | cons (name : String) (node : FsNode) (rest : FsEntries) : FsEntries
end

/-- The counting loop of src/main.rs:93-99: increment the term's count if
present, else insert it with count 1. -/
def tfAdd : TF → String → TF
  | [], t => [(t, 1)]
  | (k, v) :: rest, t =>
    if k == t then (k, v + 1) :: rest else (k, v) :: tfAdd rest t

/-- One document's term-frequency table from its extracted text. -/
def buildTF (content : List Char) : TF := (tokenize content).foldl tfAdd []

/-- `tfi.insert(file_path, tf)`: HashMap insertion, replacing any existing
entry for the key. -/
def tfiInsert : TFI → String → TF → TFI
  | [], p, t => [(p, t)]
  | (k, v) :: rest, p, t =>
    if k == p then (p, t) :: rest else (k, v) :: tfiInsert rest p t

mutual
/-- Processing of one non-dot directory entry inside the loop of
`tfi_folder`: skip a file whose parse failed, index a readable file,
recurse into a subdirectory. -/
def tfiEntry (p name : String) : FsNode → TFI → TFI
  | FsNode.file none, tfi => tfi
  | FsNode.file (some content), tfi =>
    tfiInsert tfi (p ++ "/" ++ name) (buildTF content)
  | FsNode.dir sub, tfi => tfi_folder (p ++ "/" ++ name) sub tfi
/-- `fn tfi_folder(dir_path: &Path, tfi: &mut TFI)`: the directory loop;
dot-named entries are skipped before anything else. -/
def tfi_folder (p : String) : FsEntries → TFI → TFI
  | FsEntries.nil, tfi => tfi
  | FsEntries.cons name node rest, tfi =>
    if name.startsWith "." then tfi_folder p rest tfi
    else tfi_folder p rest (tfiEntry p name node tfi)
end

mutual
/-- Specification device for C8: the node with the failed files removed. -/
def pruneNodeFailures : FsNode → FsNode
  | FsNode.file c => FsNode.file c
  | FsNode.dir sub => FsNode.dir (pruneFailures sub)
/-- Specification device for C8: the tree with every file whose read/parse
failed removed, at all depths. -/
def pruneFailures : FsEntries → FsEntries
  | FsEntries.nil => FsEntries.nil
  | FsEntries.cons _ (FsNode.file none) rest => pruneFailures rest
  | FsEntries.cons name node rest =>
    FsEntries.cons name (pruneNodeFailures node) (pruneFailures rest)
end

mutual
/-- Specification device for C10: the node with dot-named entries removed. -/
def pruneDotsNode : FsNode → FsNode
  | FsNode.file c => FsNode.file c
  | FsNode.dir sub => FsNode.dir (pruneDots sub)
/-- Specification device for C10: the tree with every entry whose name
starts with a dot removed, at all depths. -/
def pruneDots : FsEntries → FsEntries
  | FsEntries.nil => FsEntries.nil
  | FsEntries.cons name node rest =>
    if name.startsWith "." then pruneDots rest
    else FsEntries.cons name (pruneDotsNode node) (pruneDots rest)
end

/-- The document identifiers of an index, in iteration order. -/
def tfiKeys (tfi : TFI) : List String := tfi.map Prod.fst

mutual
/-- The paths a non-dot entry contributes to the index: nothing for a
failed file, its own path for a readable file, the recursively indexed
paths for a subdirectory. -/
def entryPaths (p name : String) : FsNode → List String
  | FsNode.file none => []
  | FsNode.file (some _) => [p ++ "/" ++ name]
  | FsNode.dir sub => indexedPaths (p ++ "/" ++ name) sub
/-- The paths `tfi_folder` indexes from a tree: every non-dot, successfully
read file, in traversal order. -/
def indexedPaths (p : String) : FsEntries → List String
  | FsEntries.nil => []
  | FsEntries.cons name node rest =>
    if name.startsWith "." then indexedPaths p rest
    else entryPaths p name node ++ indexedPaths p rest
end

mutual
theorem tfi_folder_pruneFailures (p : String) (e : FsEntries) (tfi : TFI) :
    tfi_folder p (pruneFailures e) tfi = tfi_folder p e tfi := by
  cases e with
  | nil => rfl
  | cons name node rest =>
    cases node with
    | file c =>
      cases c with
      | none =>
        rw [show pruneFailures (FsEntries.cons name (FsNode.file none) rest) =
          pruneFailures rest from rfl]
        rw [tfi_folder_pruneFailures p rest tfi]
        by_cases h : name.startsWith "."
        · simp [tfi_folder, h]
        · simp [tfi_folder, h, tfiEntry]
      | some content =>
        rw [show pruneFailures (FsEntries.cons name (FsNode.file (some content)) rest) =
          FsEntries.cons name (FsNode.file (some content)) (pruneFailures rest) from rfl]
        by_cases h : name.startsWith "."
        · simp only [tfi_folder, h, if_true]
          exact tfi_folder_pruneFailures p rest tfi
        · simp only [tfi_folder, h, Bool.false_eq_true, if_false, tfiEntry]
          exact tfi_folder_pruneFailures p rest _
    | dir sub =>
      rw [show pruneFailures (FsEntries.cons name (FsNode.dir sub) rest) =
        FsEntries.cons name (FsNode.dir (pruneFailures sub)) (pruneFailures rest) from rfl]
      by_cases h : name.startsWith "."
      · simp only [tfi_folder, h, if_true]
        exact tfi_folder_pruneFailures p rest tfi
      · simp only [tfi_folder, h, Bool.false_eq_true, if_false, tfiEntry]
        rw [tfi_folder_pruneFailures (p ++ "/" ++ name) sub tfi]
        exact tfi_folder_pruneFailures p rest _
end

mutual
theorem tfi_folder_pruneDots (p : String) (e : FsEntries) (tfi : TFI) :
    tfi_folder p (pruneDots e) tfi = tfi_folder p e tfi := by
  cases e with
  | nil => rfl
  | cons name node rest =>
    by_cases h : name.startsWith "."
    · rw [show pruneDots (FsEntries.cons name node rest) = pruneDots rest by
        simp [pruneDots, h]]
      rw [tfi_folder_pruneDots p rest tfi]
      simp [tfi_folder, h]
    · rw [show pruneDots (FsEntries.cons name node rest) =
        FsEntries.cons name (pruneDotsNode node) (pruneDots rest) by
        simp [pruneDots, h]]
      simp only [tfi_folder, h, Bool.false_eq_true, if_false]
      rw [tfiEntry_pruneDotsNode p name node tfi]
      exact tfi_folder_pruneDots p rest _
theorem tfiEntry_pruneDotsNode (p name : String) (node : FsNode) (tfi : TFI) :
    tfiEntry p name (pruneDotsNode node) tfi = tfiEntry p name node tfi := by
  cases node with
  | file c => cases c <;> rfl
  | dir sub =>
    show tfi_folder (p ++ "/" ++ name) (pruneDots sub) tfi =
      tfi_folder (p ++ "/" ++ name) sub tfi
    exact tfi_folder_pruneDots (p ++ "/" ++ name) sub tfi
end

theorem mem_tfiKeys_tfiInsert (q p : String) (t : TF) : ∀ tfi : TFI,
    q ∈ tfiKeys (tfiInsert tfi p t) ↔ q = p ∨ q ∈ tfiKeys tfi := by
  intro tfi
  induction tfi with
  | nil => simp [tfiInsert, tfiKeys]
  | cons kv rest ih =>
    obtain ⟨k, v⟩ := kv
    by_cases h : k == p
    · have hk : k = p := eq_of_beq h
      subst hk
      rw [show tfiInsert ((k, v) :: rest) k t = (k, t) :: rest by
        simp [tfiInsert]]
      simp only [tfiKeys, List.map_cons, List.mem_cons]
      tauto
    · rw [show tfiInsert ((k, v) :: rest) p t = (k, v) :: tfiInsert rest p t by
        simp [tfiInsert, h]]
      simp only [tfiKeys, List.map_cons, List.mem_cons]
      simp only [tfiKeys] at ih
      rw [ih]
      tauto

mutual
theorem mem_tfiKeys_tfiEntry (q p name : String) (node : FsNode) (tfi : TFI) :
    q ∈ tfiKeys (tfiEntry p name node tfi) ↔
      q ∈ tfiKeys tfi ∨ q ∈ entryPaths p name node := by
  cases node with
  | file c =>
    cases c with
    | none => simp [tfiEntry, entryPaths]
    | some content =>
      simp only [tfiEntry, entryPaths, mem_tfiKeys_tfiInsert, List.mem_singleton]
      tauto
  | dir sub =>
    show q ∈ tfiKeys (tfi_folder (p ++ "/" ++ name) sub tfi) ↔
      q ∈ tfiKeys tfi ∨ q ∈ indexedPaths (p ++ "/" ++ name) sub
    exact mem_tfiKeys_tfi_folder q (p ++ "/" ++ name) sub tfi
theorem mem_tfiKeys_tfi_folder (q p : String) (e : FsEntries) (tfi : TFI) :
    q ∈ tfiKeys (tfi_folder p e tfi) ↔
      q ∈ tfiKeys tfi ∨ q ∈ indexedPaths p e := by
  cases e with
  | nil => simp [tfi_folder, indexedPaths]
  | cons name node rest =>
    by_cases h : name.startsWith "."
    · simp only [tfi_folder, indexedPaths, h, if_true]
      exact mem_tfiKeys_tfi_folder q p rest tfi
    · simp only [tfi_folder, indexedPaths, h, Bool.false_eq_true, if_false]
      rw [mem_tfiKeys_tfi_folder q p rest (tfiEntry p name node tfi),
        mem_tfiKeys_tfiEntry q p name node tfi, List.mem_append]
      tauto
end

/-- C8: per-document read/parse failures are swallowed at the batch level.
First conjunct: removing every failed file from the tree does not change
the built index at all — a failing document is never inserted (not even
with an empty or partial table) and contributes nothing.  Second conjunct:
the built index's keys are exactly the starting keys plus the paths of
every non-dot, successfully read file of the whole tree — indexing of all
remaining documents runs to completion instead of aborting. -/
theorem c8_read_failures_swallowed :
    ∀ (p : String) (e : FsEntries) (tfi : TFI),
      tfi_folder p (pruneFailures e) tfi = tfi_folder p e tfi ∧
      (∀ q : String, q ∈ tfiKeys (tfi_folder p e tfi) ↔
        q ∈ tfiKeys tfi ∨ q ∈ indexedPaths p e) :=
  fun p e tfi =>
    ⟨tfi_folder_pruneFailures p e tfi,
     fun q => mem_tfiKeys_tfi_folder q p e tfi⟩

/-- C10: every entry whose file name starts with a dot is skipped entirely.
First conjunct: removing every dot-named entry (file or subdirectory, at
any depth, whatever its content or subtree) from the tree does not change
the built index — a dot file is never opened or parsed and a dot directory
is never descended into.  Second conjunct: the built index's keys are the
starting keys plus the paths indexed from the dot-free part of the tree, so
no dot entry ever becomes a document identifier. -/
theorem c10_dot_entries_skipped :
    ∀ (p : String) (e : FsEntries) (tfi : TFI),
      tfi_folder p (pruneDots e) tfi = tfi_folder p e tfi ∧
      (∀ q : String, q ∈ tfiKeys (tfi_folder p e tfi) ↔
        q ∈ tfiKeys tfi ∨ q ∈ indexedPaths p (pruneDots e)) := by
  intro p e tfi
  refine ⟨tfi_folder_pruneDots p e tfi, fun q => ?_⟩
  rw [← tfi_folder_pruneDots p e tfi]
  exact mem_tfiKeys_tfi_folder q p (pruneDots e) tfi
